import Mathlib

/- Verification development for the rexpect Windows process-spawning core:
   the CommandEnv environment-override merge, the command-line and
   environment-block encoders, the spawn procedure's native-call/cleanup
   trace, and the PtyProcess handle lifecycle.  Definitions are shallow
   embeddings of the functions in src/src/windows/command.rs,
   src/src/windows/process.rs and src/src/windows/pipe.rs. -/

/-- Wide (UTF-16 code unit) view of an OS string, the representation the
source manipulates via `OsStrExt::encode_wide`.  Keys of the environment
`BTreeMap` are compared lexicographically on this representation. -/
abbrev OsStr : Type := List Nat

/-- Insert-or-overwrite into the sorted-association-list model of
`BTreeMap`: entries are kept in strictly increasing key order, and an
existing binding of the same key is replaced. -/
def insertSorted {α : Type} (k : OsStr) (v : α) : List (OsStr × α) → List (OsStr × α)
  | [] => [(k, v)]
  | (k', v') :: rest =>
    if k = k' then (k, v) :: rest
    else if k < k' then (k, v) :: (k', v') :: rest
    else (k', v') :: insertSorted k v rest

/-- Removal from the sorted-association-list model of `BTreeMap`
(`BTreeMap::remove`): drops the binding of `k`, if any. -/
def removeKey {α : Type} (k : OsStr) : List (OsStr × α) → List (OsStr × α)
  | [] => []
  | (k', v') :: rest => if k = k' then rest else (k', v') :: removeKey k rest

/-- Lookup in the association-list model of `BTreeMap` (`BTreeMap::get`). -/
def lookupA {α : Type} (k : OsStr) : List (OsStr × α) → Option α
  | [] => none
  | (k', v) :: rest => if k = k' then some v else lookupA k rest

/-- The `BTreeMap` representation invariant: keys strictly increasing. -/
def SortedKeys {α : Type} (m : List (OsStr × α)) : Prop :=
  List.Pairwise (fun p q => p.1 < q.1) m

theorem mem_insertSorted {α : Type} {k : OsStr} {v : α} {p : OsStr × α} :
    ∀ {m : List (OsStr × α)}, p ∈ insertSorted k v m → p = (k, v) ∨ p ∈ m := by
  intro m
  induction m with
  | nil =>
    intro h
    simp only [insertSorted, List.mem_singleton] at h
    exact Or.inl h
  | cons hd tl ih =>
    obtain ⟨k', v'⟩ := hd
    intro h
    simp only [insertSorted] at h
    split at h
    · rcases List.mem_cons.mp h with h | h
      · exact Or.inl h
      · exact Or.inr (List.mem_cons_of_mem _ h)
    · split at h
      · rcases List.mem_cons.mp h with h | h
        · exact Or.inl h
        · exact Or.inr h
      · rcases List.mem_cons.mp h with h | h
        · exact Or.inr (List.mem_cons.mpr (Or.inl h))
        · rcases ih h with h | h
          · exact Or.inl h
          · exact Or.inr (List.mem_cons_of_mem _ h)

theorem sortedKeys_insertSorted {α : Type} {k : OsStr} {v : α} :
    ∀ {m : List (OsStr × α)}, SortedKeys m → SortedKeys (insertSorted k v m)
  | [], _ => by simp [insertSorted, SortedKeys]
  | (k', v') :: rest, h => by
    rcases List.pairwise_cons.mp h with ⟨hall, hrest⟩
    by_cases hk : k = k'
    · subst hk
      simp only [insertSorted, if_pos rfl]
      exact List.pairwise_cons.mpr ⟨hall, hrest⟩
    · by_cases hlt : k < k'
      · simp only [insertSorted, if_neg hk, if_pos hlt]
        refine List.pairwise_cons.mpr ⟨?_, h⟩
        intro q hq
        rcases List.mem_cons.mp hq with hq | hq
        · simpa [hq] using hlt
        · exact lt_trans hlt (hall q hq)
      · simp only [insertSorted, if_neg hk, if_neg hlt]
        refine List.pairwise_cons.mpr ⟨?_, sortedKeys_insertSorted hrest⟩
        intro q hq
        rcases mem_insertSorted hq with hq | hq
        · have : k' < k := lt_of_le_of_ne (not_lt.mp hlt) (Ne.symm hk)
          simpa [hq] using this
        · exact hall q hq

theorem removeKey_sublist {α : Type} (k : OsStr) :
    ∀ m : List (OsStr × α), List.Sublist (removeKey k m) m
  | [] => List.Sublist.refl _
  | (k', v') :: rest => by
    by_cases hk : k = k'
    · simp only [removeKey, if_pos hk]
      exact List.Sublist.cons _ (List.Sublist.refl rest)
    · simp only [removeKey, if_neg hk]
      exact List.Sublist.cons₂ _ (removeKey_sublist k rest)

theorem sortedKeys_removeKey {α : Type} {k : OsStr} {m : List (OsStr × α)}
    (h : SortedKeys m) : SortedKeys (removeKey k m) :=
  List.Pairwise.sublist (removeKey_sublist k m) h

theorem lookupA_insertSorted {α : Type} (j k : OsStr) (v : α) :
    ∀ m : List (OsStr × α),
      lookupA j (insertSorted k v m) = if j = k then some v else lookupA j m
  | [] => by
    by_cases h : j = k <;> simp [insertSorted, lookupA, h]
  | (k', v') :: rest => by
    simp only [insertSorted]
    by_cases hk : k = k'
    · subst hk
      by_cases hj : j = k <;> simp [lookupA, hj]
    · by_cases hlt : k < k'
      · by_cases hj : j = k <;> simp [lookupA, hk, hlt, hj]
      · have hk' : ¬ k' = k := fun h => hk h.symm
        by_cases hj : j = k'
        · have hjk : ¬ j = k := fun h => hk (h.symm.trans hj)
          simp [lookupA, hk, hk', hlt, hj, hjk]
        · simp [lookupA, hk, hlt, hj, lookupA_insertSorted j k v rest]

theorem lookupA_eq_none {α : Type} {j : OsStr} :
    ∀ {m : List (OsStr × α)}, (∀ p ∈ m, p.1 ≠ j) → lookupA j m = none
  | [], _ => rfl
  | (k', v') :: rest, h => by
    have hne : ¬ j = k' := fun he => (h (k', v') (List.mem_cons_self _ _)) he.symm
    simp only [lookupA, if_neg hne]
    exact lookupA_eq_none fun p hp => h p (List.mem_cons_of_mem _ hp)

theorem lookupA_eq_none_of_lt {α : Type} {j k' : OsStr} {v' : α}
    {rest : List (OsStr × α)} (hs : SortedKeys ((k', v') :: rest)) (hj : j ≤ k') :
    lookupA j rest = none := by
  rcases List.pairwise_cons.mp hs with ⟨hall, _⟩
  exact lookupA_eq_none fun p hp =>
    ne_of_gt (lt_of_le_of_lt hj (hall p hp))

theorem lookupA_removeKey {α : Type} (j k : OsStr) :
    ∀ {m : List (OsStr × α)}, SortedKeys m →
      lookupA j (removeKey k m) = if j = k then none else lookupA j m
  | [], _ => by by_cases h : j = k <;> simp [removeKey, lookupA, h]
  | (k', v') :: rest, hs => by
    rcases List.pairwise_cons.mp hs with ⟨hall, hrest⟩
    simp only [removeKey]
    by_cases hk : k = k'
    · subst hk
      by_cases hj : j = k
      · subst hj
        simp only [if_pos rfl]
        exact lookupA_eq_none_of_lt hs le_rfl
      · simp [lookupA, hj]
    · have hk' : ¬ k' = k := fun h => hk h.symm
      by_cases hj : j = k'
      · have hjk : ¬ j = k := fun h => hk (h.symm.trans hj)
        simp [lookupA, hk, hk', hj, hjk]
      · simp [lookupA, hk, hj, lookupA_removeKey j k hrest]

theorem sortedMap_ext {α : Type} :
    ∀ {m m' : List (OsStr × α)}, SortedKeys m → SortedKeys m' →
      (∀ k, lookupA k m = lookupA k m') → m = m'
  | [], [], _, _, _ => rfl
  | [], (k₂, v₂) :: r₂, _, _, h => by
    have := h k₂
    simp [lookupA] at this
  | (k₁, v₁) :: r₁, [], _, _, h => by
    have := h k₁
    simp [lookupA] at this
  | (k₁, v₁) :: r₁, (k₂, v₂) :: r₂, hs₁, hs₂, h => by
    have hkey : k₁ = k₂ := by
      by_contra hne
      rcases lt_or_gt_of_ne hne with hlt | hgt
      · have h1 := h k₁
        have h2 : lookupA k₁ r₂ = none := lookupA_eq_none_of_lt hs₂ (le_of_lt hlt)
        simp [lookupA, hne, h2] at h1
      · have h1 := h k₂
        have h2 : lookupA k₂ r₁ = none := lookupA_eq_none_of_lt hs₁ (le_of_lt hgt)
        have hne' : ¬ k₂ = k₁ := fun he => hne he.symm
        simp [lookupA, hne', h2] at h1
    subst hkey
    have hval : v₁ = v₂ := by
      have h1 := h k₁
      simpa [lookupA] using h1
    subst hval
    have htail : r₁ = r₂ := by
      refine sortedMap_ext (List.pairwise_cons.mp hs₁).2 (List.pairwise_cons.mp hs₂).2 ?_
      intro k
      by_cases hk : k = k₁
      · subst hk
        rw [lookupA_eq_none_of_lt hs₁ le_rfl, lookupA_eq_none_of_lt hs₂ le_rfl]
      · have h1 := h k
        simpa [lookupA, hk] using h1
    rw [htail]

/-- Environment key.  The source's `EnvKey` wraps an `OsString`; its
`From<OsString>` conversion (key normalization) is `unimplemented!()` in the
source — the design notes call this an acknowledged gap — so the model takes
the conversion to be the identity on the wide-string representation.  The
properties proved below do not depend on the choice of normalization. -/
abbrev EnvKey : Type := OsStr

/-- The `CommandEnv` override set (windows/command.rs): a clear flag, the
PATH-observation flag, and the ordered override map, where `none` is the
explicit removal marker. -/
structure CommandEnv where
  clear : Bool
  saw_path : Bool
  vars : List (EnvKey × Option OsStr)
  deriving DecidableEq

/-- `CommandEnv::default()`: no clearing, no overrides. -/
def CommandEnv.default : CommandEnv :=
  { clear := false, saw_path := false, vars := [] }

/-- The code units of the literal string PATH. -/
def PATHKey : OsStr := [80, 65, 84, 72]

/-- `CommandEnv::maybe_saw_path`: flips `saw_path` once the PATH key is
touched. -/
def CommandEnv.maybe_saw_path (e : CommandEnv) (key : OsStr) : CommandEnv :=
  if !e.saw_path && key = PATHKey then { e with saw_path := true } else e

/-- `CommandEnv::set`: record an insert/overwrite override. -/
def CommandEnv.set (e : CommandEnv) (key value : OsStr) : CommandEnv :=
  let e := e.maybe_saw_path key
  { e with vars := insertSorted key (some value) e.vars }

/-- `CommandEnv::remove`: under `clear` the key is deleted from the override
map outright; otherwise an explicit removal marker is recorded. -/
def CommandEnv.remove (e : CommandEnv) (key : OsStr) : CommandEnv :=
  let e := e.maybe_saw_path key
  if e.clear then { e with vars := removeKey key e.vars }
  else { e with vars := insertSorted key none e.vars }

/-- `CommandEnv::clear` (named `clearEnv` here because `clear` is the field
name): sets the flag and empties the override map. -/
def CommandEnv.clearEnv (e : CommandEnv) : CommandEnv :=
  { e with clear := true, vars := [] }

/-- An ambient-environment snapshot: the pairs yielded by `env::vars_os()`,
in an arbitrary order. -/
abbrev Ambient := List (OsStr × OsStr)

/-- First phase of `CommandEnv::capture`: insert every ambient pair into the
fresh result map. -/
def envSnapshot (ambient : Ambient) : List (OsStr × OsStr) :=
  ambient.foldl (fun m p => insertSorted p.1 p.2 m) []

/-- Second phase of `CommandEnv::capture`: fold the recorded overrides over
the base map — a present value inserts, an absent value removes. -/
def applyVars (vars : List (EnvKey × Option OsStr)) (base : List (OsStr × OsStr)) :
    List (OsStr × OsStr) :=
  vars.foldl (fun m p =>
    match p.2 with
    | some v => insertSorted p.1 v m
    | none => removeKey p.1 m) base

/-- `CommandEnv::capture` (windows/command.rs lines 87-102), with the ambient
process environment passed explicitly. -/
def CommandEnv.capture (e : CommandEnv) (ambient : Ambient) : List (OsStr × OsStr) :=
  applyVars e.vars (if e.clear = true then [] else envSnapshot ambient)

/-- `CommandEnv::is_unchanged`. -/
def CommandEnv.is_unchanged (e : CommandEnv) : Bool :=
  !e.clear && e.vars.isEmpty

/-- `CommandEnv::capture_if_changed`. -/
def CommandEnv.capture_if_changed (e : CommandEnv) (ambient : Ambient) :
    Option (List (OsStr × OsStr)) :=
  if e.is_unchanged = true then none else some (e.capture ambient)

/-- One recorded environment-override operation, as issued through the
`Command` builder (`env`/`env_remove`/`env_clear`). -/
inductive EnvOp
  | set (k v : OsStr)
  | remove (k : OsStr)
  | clearOp
  deriving DecidableEq

/-- Apply one operation to a `CommandEnv`. -/
def applyOp (e : CommandEnv) : EnvOp → CommandEnv
  | .set k v => e.set k v
  | .remove k => e.remove k
  | .clearOp => e.clearEnv

/-- Apply a recorded operation sequence, oldest first. -/
def applyOps (e : CommandEnv) (ops : List EnvOp) : CommandEnv :=
  ops.foldl applyOp e

/-- Direct replay of one operation against an environment map: set
inserts/overwrites, remove deletes the key if present (no-op otherwise),
clear empties the map. -/
def replayOp (m : List (OsStr × OsStr)) : EnvOp → List (OsStr × OsStr)
  | .set k v => insertSorted k v m
  | .remove k => removeKey k m
  | .clearOp => []

/-- Replay a whole operation sequence against an initial map. -/
def replayOps (m : List (OsStr × OsStr)) (ops : List EnvOp) : List (OsStr × OsStr) :=
  ops.foldl replayOp m

theorem vars_maybe_saw_path (e : CommandEnv) (k : OsStr) :
    (e.maybe_saw_path k).vars = e.vars := by
  unfold CommandEnv.maybe_saw_path
  split <;> rfl

theorem clear_maybe_saw_path (e : CommandEnv) (k : OsStr) :
    (e.maybe_saw_path k).clear = e.clear := by
  unfold CommandEnv.maybe_saw_path
  split <;> rfl

theorem sortedKeys_foldl_insert :
    ∀ (l : Ambient) (m : List (OsStr × OsStr)), SortedKeys m →
      SortedKeys (l.foldl (fun m p => insertSorted p.1 p.2 m) m)
  | [], _, hm => hm
  | _ :: rest, m, hm => by
    simp only [List.foldl_cons]
    exact sortedKeys_foldl_insert rest _ (sortedKeys_insertSorted hm)

theorem sortedKeys_envSnapshot (ambient : Ambient) : SortedKeys (envSnapshot ambient) :=
  sortedKeys_foldl_insert ambient [] List.Pairwise.nil

theorem sortedKeys_applyVars :
    ∀ (vars : List (EnvKey × Option OsStr)) (base : List (OsStr × OsStr)),
      SortedKeys base → SortedKeys (applyVars vars base)
  | [], _, hb => hb
  | (k, mv) :: rest, base, hb => by
    simp only [applyVars, List.foldl_cons]
    refine sortedKeys_applyVars rest _ ?_
    cases mv with
    | some v => exact sortedKeys_insertSorted hb
    | none => exact sortedKeys_removeKey hb

theorem sortedKeys_capture (e : CommandEnv) (ambient : Ambient) :
    SortedKeys (e.capture ambient) := by
  unfold CommandEnv.capture
  apply sortedKeys_applyVars
  split
  · exact List.Pairwise.nil
  · exact sortedKeys_envSnapshot ambient

theorem sortedKeys_applyOp_vars (e : CommandEnv) (op : EnvOp)
    (he : SortedKeys e.vars) : SortedKeys (applyOp e op).vars := by
  cases op with
  | set k v =>
    simp only [applyOp, CommandEnv.set, vars_maybe_saw_path]
    exact sortedKeys_insertSorted (by simpa [vars_maybe_saw_path] using he)
  | remove k =>
    simp only [applyOp, CommandEnv.remove]
    split
    · exact sortedKeys_removeKey (by simpa [vars_maybe_saw_path] using he)
    · exact sortedKeys_insertSorted (by simpa [vars_maybe_saw_path] using he)
  | clearOp => exact List.Pairwise.nil

theorem applyVars_cons_some (k v : OsStr) (rest : List (EnvKey × Option OsStr))
    (base : List (OsStr × OsStr)) :
    applyVars ((k, some v) :: rest) base = applyVars rest (insertSorted k v base) := rfl

theorem applyVars_cons_none (k : OsStr) (rest : List (EnvKey × Option OsStr))
    (base : List (OsStr × OsStr)) :
    applyVars ((k, none) :: rest) base = applyVars rest (removeKey k base) := rfl

theorem lookupA_applyVars (j : OsStr) :
    ∀ (vars : List (EnvKey × Option OsStr)) (base : List (OsStr × OsStr)),
      SortedKeys vars → SortedKeys base →
      lookupA j (applyVars vars base) =
        (match lookupA j vars with
         | some (some v) => some v
         | some none => none
         | none => lookupA j base)
  | [], base, _, _ => rfl
  | (k, mv) :: rest, base, hv, hb => by
    rcases List.pairwise_cons.mp hv with ⟨hall, hrest⟩
    cases mv with
    | some v =>
      have ih := lookupA_applyVars j rest (insertSorted k v base) hrest
        (sortedKeys_insertSorted hb)
      rw [applyVars_cons_some, ih]
      by_cases hj : j = k
      · subst hj
        have hnone : lookupA j rest = none :=
          lookupA_eq_none fun p hp => ne_of_gt (hall p hp)
        simp [hnone, lookupA, lookupA_insertSorted]
      · simp only [lookupA, if_neg hj]
        rcases hres : lookupA j rest with _ | mv'
        · simp [lookupA_insertSorted, hj]
        · cases mv' <;> rfl
    | none =>
      have ih := lookupA_applyVars j rest (removeKey k base) hrest
        (sortedKeys_removeKey hb)
      rw [applyVars_cons_none, ih]
      by_cases hj : j = k
      · subst hj
        have hnone : lookupA j rest = none :=
          lookupA_eq_none fun p hp => ne_of_gt (hall p hp)
        simp [hnone, lookupA, lookupA_removeKey j j hb]
      · simp only [lookupA, if_neg hj]
        rcases hres : lookupA j rest with _ | mv'
        · simp [lookupA_removeKey j k hb, hj]
        · cases mv' <;> rfl

theorem replayOp_set (m : List (OsStr × OsStr)) (k v : OsStr) :
    replayOp m (.set k v) = insertSorted k v m := rfl

theorem replayOp_remove (m : List (OsStr × OsStr)) (k : OsStr) :
    replayOp m (.remove k) = removeKey k m := rfl

theorem capture_applyOp (e : CommandEnv) (op : EnvOp) (ambient : Ambient)
    (he : SortedKeys e.vars) :
    (applyOp e op).capture ambient = replayOp (e.capture ambient) op := by
  have hbase : SortedKeys (if e.clear = true then ([] : List (OsStr × OsStr))
      else envSnapshot ambient) := by
    split
    · exact List.Pairwise.nil
    · exact sortedKeys_envSnapshot ambient
  have hE : ∀ j, lookupA j (e.capture ambient) =
      (match lookupA j e.vars with
       | some (some w) => some w
       | some none => none
       | none => lookupA j (if e.clear = true then [] else envSnapshot ambient)) := by
    intro j
    unfold CommandEnv.capture
    exact lookupA_applyVars j _ _ he hbase
  cases op with
  | clearOp =>
    rfl
  | set k v =>
    have hvars : (applyOp e (.set k v)).vars = insertSorted k (some v) e.vars := by
      simp [applyOp, CommandEnv.set, vars_maybe_saw_path]
    have hclear : (applyOp e (.set k v)).clear = e.clear := by
      simp [applyOp, CommandEnv.set, clear_maybe_saw_path]
    rw [replayOp_set]
    refine sortedMap_ext (sortedKeys_capture _ ambient)
      (sortedKeys_insertSorted (sortedKeys_capture e ambient)) ?_
    intro j
    have hL : lookupA j ((applyOp e (.set k v)).capture ambient) =
        (match lookupA j (insertSorted k (some v) e.vars) with
         | some (some w) => some w
         | some none => none
         | none => lookupA j (if e.clear = true then [] else envSnapshot ambient)) := by
      unfold CommandEnv.capture
      rw [hvars, hclear]
      exact lookupA_applyVars j _ _ (sortedKeys_insertSorted he) hbase
    rw [hL, lookupA_insertSorted j k (some v) e.vars,
      lookupA_insertSorted j k v (e.capture ambient), hE j]
    by_cases hj : j = k
    · simp [hj]
    · simp [hj]
  | remove k =>
    have hvars : (applyOp e (.remove k)).vars =
        (if e.clear = true then removeKey k e.vars else insertSorted k none e.vars) := by
      simp only [applyOp, CommandEnv.remove, clear_maybe_saw_path, vars_maybe_saw_path]
      split
      · simp_all [vars_maybe_saw_path, clear_maybe_saw_path]
      · simp_all [vars_maybe_saw_path, clear_maybe_saw_path]
    have hclear : (applyOp e (.remove k)).clear = e.clear := by
      simp only [applyOp, CommandEnv.remove]
      split <;> simp [clear_maybe_saw_path]
    rw [replayOp_remove]
    refine sortedMap_ext (sortedKeys_capture _ ambient)
      (sortedKeys_removeKey (sortedKeys_capture e ambient)) ?_
    intro j
    rw [lookupA_removeKey j k (sortedKeys_capture e ambient), hE j]
    by_cases hc : e.clear = true
    · have hL : lookupA j ((applyOp e (.remove k)).capture ambient) =
          (match lookupA j (removeKey k e.vars) with
           | some (some w) => some w
           | some none => none
           | none => lookupA j (if e.clear = true then [] else envSnapshot ambient)) := by
        unfold CommandEnv.capture
        rw [hvars, hclear, if_pos hc]
        exact lookupA_applyVars j _ _ (sortedKeys_removeKey he) hbase
      rw [hL, lookupA_removeKey j k he]
      by_cases hj : j = k
      · simp [hj, hc, lookupA]
      · simp [hj]
    · have hL : lookupA j ((applyOp e (.remove k)).capture ambient) =
          (match lookupA j (insertSorted k none e.vars) with
           | some (some w) => some w
           | some none => none
           | none => lookupA j (if e.clear = true then [] else envSnapshot ambient)) := by
        unfold CommandEnv.capture
        rw [hvars, hclear, if_neg hc]
        exact lookupA_applyVars j _ _ (sortedKeys_insertSorted he) hbase
      rw [hL, lookupA_insertSorted j k none e.vars]
      by_cases hj : j = k
      · simp [hj]
      · simp [hj]

theorem capture_replay_from (ops : List EnvOp) :
    ∀ (e : CommandEnv), SortedKeys e.vars → ∀ (ambient : Ambient),
      (applyOps e ops).capture ambient = replayOps (e.capture ambient) ops := by
  induction ops with
  | nil => intro e _ ambient; rfl
  | cons op rest ih =>
    intro e he ambient
    simp only [applyOps, replayOps, List.foldl_cons]
    have h1 := ih (applyOp e op) (sortedKeys_applyOp_vars e op he) ambient
    simp only [applyOps, replayOps] at h1
    rw [h1, capture_applyOp e op ambient he]

/-- C1: for every recorded override sequence and every ambient-environment
snapshot, `capture()` on the resulting `CommandEnv` equals the replay of the
recorded set/remove/clear sequence against the initial snapshot of the
ambient environment — a present value inserts or overwrites, an absent value
removes if present (no-op otherwise), a clear empties the map — independent
of how the operations were grouped into builder calls. -/
theorem capture_eq_replay (ops : List EnvOp) (ambient : Ambient) :
    (applyOps CommandEnv.default ops).capture ambient =
      replayOps (envSnapshot ambient) ops := by
  have h := capture_replay_from ops CommandEnv.default List.Pairwise.nil ambient
  rw [h]
  have hd : CommandEnv.default.capture ambient = envSnapshot ambient := rfl
  rw [hd]

/-- Recognizer for the clear operation. -/
def EnvOp.isClearOp : EnvOp → Bool
  | .clearOp => true
  | _ => false

/-- Recognizer for an explicit set or remove operation. -/
def EnvOp.isSetOrRemove : EnvOp → Bool
  | .set _ _ => true
  | .remove _ => true
  | .clearOp => false

theorem clear_applyOp (e : CommandEnv) (op : EnvOp) :
    (applyOp e op).clear = (e.clear || op.isClearOp) := by
  cases op with
  | set k v => simp [applyOp, CommandEnv.set, clear_maybe_saw_path, EnvOp.isClearOp]
  | remove k =>
    simp only [applyOp, CommandEnv.remove]
    split <;> simp [clear_maybe_saw_path, EnvOp.isClearOp]
  | clearOp => simp [applyOp, CommandEnv.clearEnv, EnvOp.isClearOp]

theorem clear_applyOps :
    ∀ (ops : List EnvOp) (e : CommandEnv),
      (applyOps e ops).clear = (e.clear || ops.any EnvOp.isClearOp)
  | [], e => by simp [applyOps]
  | op :: rest, e => by
    simp only [applyOps, List.foldl_cons, List.any_cons]
    have := clear_applyOps rest (applyOp e op)
    simp only [applyOps] at this
    rw [this, clear_applyOp, Bool.or_assoc]

theorem insertSorted_ne_nil {α : Type} (k : OsStr) (v : α) :
    ∀ m : List (OsStr × α), insertSorted k v m ≠ []
  | [] => by simp [insertSorted]
  | (k', v') :: rest => by
    simp only [insertSorted]
    split
    · simp
    · split <;> simp

theorem vars_ne_nil_applyOps :
    ∀ (ops : List EnvOp) (e : CommandEnv),
      ops.any EnvOp.isClearOp = false → e.clear = false → e.vars ≠ [] →
      (applyOps e ops).vars ≠ []
  | [], _, _, _, hne => hne
  | op :: rest, e, hany, hc, hne => by
    simp only [List.any_cons, Bool.or_eq_false_iff] at hany
    simp only [applyOps, List.foldl_cons]
    have hstep := vars_ne_nil_applyOps rest (applyOp e op) hany.2
    simp only [applyOps] at hstep
    cases op with
    | set k v =>
      refine hstep ?_ ?_
      · simp [clear_applyOp, hc, EnvOp.isClearOp]
      · simp only [applyOp, CommandEnv.set, vars_maybe_saw_path]
        exact insertSorted_ne_nil _ _ _
    | remove k =>
      refine hstep ?_ ?_
      · simp [clear_applyOp, hc, EnvOp.isClearOp]
      · simp only [applyOp, CommandEnv.remove, clear_maybe_saw_path, vars_maybe_saw_path]
        rw [if_neg (by simp [hc])]
        simp only [vars_maybe_saw_path]
        exact insertSorted_ne_nil _ _ _
    | clearOp => simp [EnvOp.isClearOp] at hany

theorem vars_nil_applyOps_iff :
    ∀ (ops : List EnvOp) (e : CommandEnv),
      ops.any EnvOp.isClearOp = false → e.clear = false →
      ((applyOps e ops).vars = [] ↔ (e.vars = [] ∧ ops = []))
  | [], e, _, _ => by simp [applyOps]
  | op :: rest, e, hany, hc => by
    constructor
    · intro hnil
      exfalso
      simp only [List.any_cons, Bool.or_eq_false_iff] at hany
      have hne : (applyOp e op).vars ≠ [] := by
        cases op with
        | set k v =>
          simp only [applyOp, CommandEnv.set, vars_maybe_saw_path]
          exact insertSorted_ne_nil _ _ _
        | remove k =>
          simp only [applyOp, CommandEnv.remove]
          have hc' : (e.maybe_saw_path k).clear = false := by rw [clear_maybe_saw_path]; exact hc
          rw [if_neg (by simp [hc'])]
          simp only [vars_maybe_saw_path]
          exact insertSorted_ne_nil _ _ _
        | clearOp => simp [EnvOp.isClearOp] at hany
      have hcstep : (applyOp e op).clear = false := by
        cases op with
        | set k v => simp [clear_applyOp, hc, EnvOp.isClearOp]
        | remove k => simp [clear_applyOp, hc, EnvOp.isClearOp]
        | clearOp => simp [EnvOp.isClearOp] at hany
      have := vars_ne_nil_applyOps rest (applyOp e op) hany.2 hcstep hne
      simp only [applyOps, List.foldl_cons] at hnil
      simp only [applyOps] at this
      exact this hnil
    · rintro ⟨-, h⟩
      exact absurd h (List.cons_ne_nil _ _)

/-- C8: `capture_if_changed()` returns no override (None) exactly when
`clear` is false and no set or remove operation was ever recorded; and in
every case it returns either that signal or exactly `capture()`'s result. -/
theorem capture_if_changed_spec (ops : List EnvOp) (ambient : Ambient) :
    ((applyOps CommandEnv.default ops).capture_if_changed ambient = none
       ↔ ((applyOps CommandEnv.default ops).clear = false
            ∧ ∀ op ∈ ops, op.isSetOrRemove = false))
    ∧ (∀ e : CommandEnv,
        e.capture_if_changed ambient = none
          ∨ e.capture_if_changed ambient = some (e.capture ambient)) := by
  constructor
  · constructor
    · intro h
      have hu : (applyOps CommandEnv.default ops).is_unchanged = true := by
        by_contra hne
        unfold CommandEnv.capture_if_changed at h
        rw [if_neg hne] at h
        exact Option.some_ne_none _ h
      unfold CommandEnv.is_unchanged at hu
      rw [Bool.and_eq_true, Bool.not_eq_true'] at hu
      obtain ⟨hcl, hvars⟩ := hu
      have hany : ops.any EnvOp.isClearOp = false := by
        have hca := clear_applyOps ops CommandEnv.default
        rw [hcl] at hca
        simpa [CommandEnv.default] using hca.symm
      have hvnil : (applyOps CommandEnv.default ops).vars = [] := by
        cases hv : (applyOps CommandEnv.default ops).vars with
        | nil => rfl
        | cons p rest => rw [hv] at hvars; simp [List.isEmpty] at hvars
      have hiff := (vars_nil_applyOps_iff ops CommandEnv.default hany rfl).mp hvnil
      refine ⟨hcl, ?_⟩
      rw [hiff.2]
      intro op hop
      exact absurd hop (List.not_mem_nil op)
    · rintro ⟨hcl, hsr⟩
      have hany : ops.any EnvOp.isClearOp = false := by
        have hca := clear_applyOps ops CommandEnv.default
        rw [hcl] at hca
        simpa [CommandEnv.default] using hca.symm
      have hnil : ops = [] := by
        cases ops with
        | nil => rfl
        | cons op rest =>
          exfalso
          cases op with
          | set k v => simpa [EnvOp.isSetOrRemove] using hsr _ (List.mem_cons_self _ _)
          | remove k => simpa [EnvOp.isSetOrRemove] using hsr _ (List.mem_cons_self _ _)
          | clearOp => simp [EnvOp.isClearOp] at hany
      subst hnil
      rfl
  · intro e
    unfold CommandEnv.capture_if_changed
    split
    · exact Or.inl rfl
    · exact Or.inr rfl

theorem insertSorted_append_of_gt {α : Type} (k : OsStr) (v : α) :
    ∀ (base : List (OsStr × α)), (∀ p ∈ base, p.1 < k) →
      insertSorted k v base = base ++ [(k, v)]
  | [], _ => rfl
  | (k', v') :: rest, h => by
    have hk' : k' < k := h (k', v') (List.mem_cons_self _ _)
    have hne : ¬ k = k' := fun he => absurd hk' (by simp [he])
    have hnlt : ¬ k < k' := not_lt.mpr (le_of_lt hk')
    simp only [insertSorted, if_neg hne, if_neg hnlt, List.cons_append]
    rw [insertSorted_append_of_gt k v rest (fun p hp => h p (List.mem_cons_of_mem _ hp))]

theorem removeKey_of_forall_ne {α : Type} (k : OsStr) :
    ∀ (base : List (OsStr × α)), (∀ p ∈ base, p.1 ≠ k) → removeKey k base = base
  | [], _ => rfl
  | (k', v') :: rest, h => by
    have hne : ¬ k = k' := fun he => (h (k', v') (List.mem_cons_self _ _)) he.symm
    simp only [removeKey, if_neg hne]
    rw [removeKey_of_forall_ne k rest (fun p hp => h p (List.mem_cons_of_mem _ hp))]

theorem applyVars_eq_append :
    ∀ (m : List (EnvKey × Option OsStr)) (base : List (OsStr × OsStr)),
      SortedKeys m → (∀ p ∈ base, ∀ q ∈ m, p.1 < q.1) →
      applyVars m base = base ++ m.filterMap (fun p => p.2.map (fun v => (p.1, v)))
  | [], base, _, _ => by simp [applyVars]
  | (k, mv) :: rest, base, hs, hcross => by
    rcases List.pairwise_cons.mp hs with ⟨hall, hrest⟩
    cases mv with
    | some v =>
      have hins : insertSorted k v base = base ++ [(k, v)] :=
        insertSorted_append_of_gt k v base
          (fun p hp => hcross p hp (k, some v) (List.mem_cons_self _ _))
      have hcross' : ∀ p ∈ base ++ [(k, v)], ∀ q ∈ rest, p.1 < q.1 := by
        intro p hp q hq
        rcases List.mem_append.mp hp with hp | hp
        · exact hcross p hp q (List.mem_cons_of_mem _ hq)
        · have hpk : p = (k, v) := by simpa using hp
          subst hpk
          exact hall q hq
      rw [applyVars_cons_some, hins,
        applyVars_eq_append rest (base ++ [(k, v)]) hrest hcross']
      simp [List.filterMap_cons]
    | none =>
      have hrem : removeKey k base = base :=
        removeKey_of_forall_ne k base
          (fun p hp => ne_of_lt (hcross p hp (k, none) (List.mem_cons_self _ _)))
      rw [applyVars_cons_none, hrem,
        applyVars_eq_append rest base hrest
          (fun p hp q hq => hcross p hp q (List.mem_cons_of_mem _ hq))]
      simp [List.filterMap_cons]

theorem sortedKeys_applyOps_vars :
    ∀ (ops : List EnvOp) (e : CommandEnv), SortedKeys e.vars →
      SortedKeys (applyOps e ops).vars
  | [], _, he => he
  | op :: rest, e, he => by
    simp only [applyOps, List.foldl_cons]
    have h := sortedKeys_applyOps_vars rest (applyOp e op) (sortedKeys_applyOp_vars e op he)
    simpa [applyOps] using h

/-- The clear-implies-no-removal-markers invariant of `CommandEnv`. -/
def NoMarkersWhenClear (e : CommandEnv) : Prop :=
  e.clear = true → ∀ k, (k, (none : Option OsStr)) ∉ e.vars

theorem noMarkers_applyOp (e : CommandEnv) (op : EnvOp)
    (h : NoMarkersWhenClear e) : NoMarkersWhenClear (applyOp e op) := by
  cases op with
  | set k v =>
    intro hc j hmem
    have hce := clear_applyOp e (.set k v)
    simp only [EnvOp.isClearOp, Bool.or_false] at hce
    rw [hce] at hc
    simp only [applyOp, CommandEnv.set, vars_maybe_saw_path] at hmem
    rcases mem_insertSorted hmem with hm | hm
    · exact absurd hm (by simp)
    · exact h hc j hm
  | remove k =>
    intro hc j hmem
    have hce := clear_applyOp e (.remove k)
    simp only [EnvOp.isClearOp, Bool.or_false] at hce
    rw [hce] at hc
    simp only [applyOp, CommandEnv.remove] at hmem
    rw [if_pos (by rw [clear_maybe_saw_path]; exact hc)] at hmem
    simp only [vars_maybe_saw_path] at hmem
    exact h hc j ((removeKey_sublist k e.vars).subset hmem)
  | clearOp =>
    intro _ j hmem
    simp [applyOp, CommandEnv.clearEnv] at hmem

theorem noMarkers_applyOps :
    ∀ (ops : List EnvOp) (e : CommandEnv), NoMarkersWhenClear e →
      NoMarkersWhenClear (applyOps e ops)
  | [], _, h => h
  | op :: rest, e, h => by
    simp only [applyOps, List.foldl_cons]
    have h2 := noMarkers_applyOps rest (applyOp e op) (noMarkers_applyOp e op h)
    simpa [applyOps] using h2

/-- C10: `CommandEnv` maintains, across every reachable state, the invariant
that when `clear` is set the override map holds no removal markers —
`clear()` empties `vars`, `remove()` under `clear` deletes the key outright,
and `set()` only inserts present values — and consequently after a clear,
`capture()` returns exactly the present-valued entries recorded afterwards
and never consults the ambient environment. -/
theorem commandEnv_clear_invariant (ops : List EnvOp) (ambient : Ambient)
    (h : (applyOps CommandEnv.default ops).clear = true) :
    (∀ k, (k, (none : Option OsStr)) ∉ (applyOps CommandEnv.default ops).vars)
    ∧ (applyOps CommandEnv.default ops).capture ambient =
        (applyOps CommandEnv.default ops).vars.filterMap
          (fun p => p.2.map (fun v => (p.1, v))) := by
  have hinv := noMarkers_applyOps ops CommandEnv.default
    (fun hc => by simp [CommandEnv.default] at hc)
  refine ⟨hinv h, ?_⟩
  unfold CommandEnv.capture
  rw [if_pos h]
  have hs := sortedKeys_applyOps_vars ops CommandEnv.default List.Pairwise.nil
  have happ := applyVars_eq_append (applyOps CommandEnv.default ops).vars [] hs
    (fun p hp => absurd hp (List.not_mem_nil p))
  simpa using happ

/-- Witness for C10 at a concrete operation sequence: clear then set. -/
theorem commandEnv_clear_invariant_witness :
    ((applyOps CommandEnv.default [EnvOp.clearOp, EnvOp.set [65] [66]]).clear = true)
    ∧ (applyOps CommandEnv.default [EnvOp.clearOp, EnvOp.set [65] [66]]).capture
        [([67], [68])] = [([65], [66])] :=
  ⟨by decide, by
    rw [(commandEnv_clear_invariant [EnvOp.clearOp, EnvOp.set [65] [66]]
      [([67], [68])] (by decide)).2]
    decide⟩

deriving instance DecidableEq for Except

/-- The `io::ErrorKind` values this code can produce. -/
inductive IoErrorKind
  | invalidInput
  deriving DecidableEq

/-- `ensure_no_nuls` (windows/command.rs lines 165-174): reject any wide
string containing a nul code unit with an `InvalidInput` error. -/
def ensure_no_nuls (s : OsStr) : Except IoErrorKind OsStr :=
  if s.any (fun b => b = 0) then .error .invalidInput else .ok s

/-- The character-scanning loop of `append_arg`: `backslashes` counts the
current run of consecutive backslashes already pushed to `cmd`; a literal
quote first gets `backslashes + 1` extra backslashes emitted before it; any
other character resets the run.  Returns the extended buffer and the length
of the trailing backslash run. -/
def argLoop : List Nat → List Nat → Nat → (List Nat × Nat)
  | [], cmd, backslashes => (cmd, backslashes)
  | x :: rest, cmd, backslashes =>
    if x = 92 then argLoop rest (cmd ++ [x]) (backslashes + 1)
    else if x = 34 then argLoop rest ((cmd ++ List.replicate (backslashes + 1) 92) ++ [x]) 0
    else argLoop rest (cmd ++ [x]) 0

/-- The `append_arg` helper of `make_command_line`: nul check (the `?`
operator propagates the error), quoting decision (forced, or a space/tab
present, or empty), the scanning loop, and the closing-quote backslash
doubling. -/
def append_arg (cmd : List Nat) (arg : OsStr) (force_quotes : Bool) :
    Except IoErrorKind (List Nat) :=
  match ensure_no_nuls arg with
  | .error e => .error e
  | .ok _ =>
    let quote := force_quotes || arg.any (fun c => c = 32 || c = 9) || arg.isEmpty
    let cmd1 := if quote then cmd ++ [34] else cmd
    match argLoop arg cmd1 0 with
    | (cmd2, backslashes) =>
      .ok (if quote then (cmd2 ++ List.replicate backslashes 92) ++ [34] else cmd2)

/-- The argument loop of `make_command_line`: pushes a separating space then
appends the next argument token, propagating the first error. -/
def make_command_line_args (cmd : List Nat) : List OsStr → Except IoErrorKind (List Nat)
  | [] => .ok cmd
  | arg :: rest =>
    match append_arg (cmd ++ [32]) arg false with
    | .error e => .error e
    | .ok cmd' => make_command_line_args cmd' rest

/-- `make_command_line` (windows/command.rs lines 366-419): the program
token is appended with forced quoting, then each argument is appended after
a single separating space; no terminator is appended by this function. -/
def make_command_line (prog : OsStr) (args : List OsStr) :
    Except IoErrorKind (List Nat) :=
  match append_arg [] prog true with
  | .error e => .error e
  | .ok cmd => make_command_line_args cmd args

/-- Spec-side escape of the interior of a token, carrying the pending run of
`n` backslashes: a literal quote preceded by a run of N backslashes becomes
2N+1 backslashes followed by the quote; backslashes not before a quote are
copied through unchanged. -/
def escInnerAux : Nat → List Nat → List Nat
  | n, [] => List.replicate n 92
  | n, c :: rest =>
    if c = 92 then escInnerAux (n + 1) rest
    else if c = 34 then List.replicate (2 * n + 1) 92 ++ 34 :: escInnerAux 0 rest
    else List.replicate n 92 ++ c :: escInnerAux 0 rest

/-- Spec-side escape of a token's interior, starting with no pending run. -/
def escInner (arg : OsStr) : List Nat := escInnerAux 0 arg

/-- The length of the trailing run of backslashes of a token. -/
def trailingBackslashes (arg : OsStr) : Nat :=
  (arg.reverse.takeWhile (fun c => c = 92)).length

/-- Spec-side encoding of one token: quote exactly when forced, or the
argument is empty or contains a space or tab; inside, escape per
`escInner`; a quoted token doubles its trailing backslash run (2N total)
before the closing quote. -/
def specToken (arg : OsStr) (force_quotes : Bool) : List Nat :=
  let quote := force_quotes || arg.any (fun c => c = 32 || c = 9) || arg.isEmpty
  (if quote then [34] else [])
    ++ escInner arg
    ++ (if quote then List.replicate (trailingBackslashes arg) 92 ++ [34] else [])

/-- Spec-side encoding of a whole command line: the program token always
force-quoted, argument tokens space-joined after it, and nothing appended
at the end. -/
def specCommandLine (prog : OsStr) (args : List OsStr) : List Nat :=
  specToken prog true ++ (args.map (fun a => 32 :: specToken a false)).flatten

theorem argLoop_cons_92 (rest cmd : List Nat) (bs : Nat) :
    argLoop (92 :: rest) cmd bs = argLoop rest (cmd ++ [92]) (bs + 1) := rfl

theorem argLoop_cons_34 (rest cmd : List Nat) (bs : Nat) :
    argLoop (34 :: rest) cmd bs =
      argLoop rest ((cmd ++ List.replicate (bs + 1) 92) ++ [34]) 0 := rfl

theorem argLoop_cons_other (c : Nat) (rest cmd : List Nat) (bs : Nat)
    (h92 : ¬ c = 92) (h34 : ¬ c = 34) :
    argLoop (c :: rest) cmd bs = argLoop rest (cmd ++ [c]) 0 := by
  simp only [argLoop, if_neg h92, if_neg h34]

theorem escInnerAux_92 (n : Nat) (rest : List Nat) :
    escInnerAux n (92 :: rest) = escInnerAux (n + 1) rest := rfl

theorem escInnerAux_34 (n : Nat) (rest : List Nat) :
    escInnerAux n (34 :: rest) = List.replicate (2 * n + 1) 92 ++ 34 :: escInnerAux 0 rest := rfl

theorem escInnerAux_other (n c : Nat) (rest : List Nat)
    (h92 : ¬ c = 92) (h34 : ¬ c = 34) :
    escInnerAux n (c :: rest) = List.replicate n 92 ++ c :: escInnerAux 0 rest := by
  simp only [escInnerAux, if_neg h92, if_neg h34]

theorem argLoop_factor :
    ∀ (chars cmd : List Nat) (bs : Nat),
      argLoop chars cmd bs =
        (cmd ++ (argLoop chars [] bs).1, (argLoop chars [] bs).2)
  | [], cmd, bs => by simp [argLoop]
  | c :: rest, cmd, bs => by
    by_cases h92 : c = 92
    · subst h92
      rw [argLoop_cons_92, argLoop_cons_92,
          argLoop_factor rest (cmd ++ [92]) (bs + 1),
          argLoop_factor rest ([] ++ [92]) (bs + 1)]
      simp
    · by_cases h34 : c = 34
      · subst h34
        rw [argLoop_cons_34, argLoop_cons_34,
            argLoop_factor rest ((cmd ++ List.replicate (bs + 1) 92) ++ [34]) 0,
            argLoop_factor rest (([] ++ List.replicate (bs + 1) 92) ++ [34]) 0]
        simp
      · rw [argLoop_cons_other c rest cmd bs h92 h34,
            argLoop_cons_other c rest [] bs h92 h34,
            argLoop_factor rest (cmd ++ [c]) 0,
            argLoop_factor rest ([] ++ [c]) 0]
        simp

theorem argLoop_snd_factor (chars cmd : List Nat) (bs : Nat) :
    (argLoop chars cmd bs).2 = (argLoop chars [] bs).2 := by
  rw [argLoop_factor chars cmd bs]

theorem argLoop_fst_eq :
    ∀ (chars : List Nat) (bs : Nat),
      List.replicate bs 92 ++ (argLoop chars [] bs).1 = escInnerAux bs chars
  | [], bs => by simp [argLoop, escInnerAux]
  | c :: rest, bs => by
    by_cases h92 : c = 92
    · subst h92
      rw [argLoop_cons_92, escInnerAux_92,
          argLoop_factor rest ([] ++ [92]) (bs + 1),
          ← argLoop_fst_eq rest (bs + 1), List.replicate_succ']
      simp
    · by_cases h34 : c = 34
      · subst h34
        rw [argLoop_cons_34, escInnerAux_34,
            argLoop_factor rest (([] ++ List.replicate (bs + 1) 92) ++ [34]) 0]
        have ih := argLoop_fst_eq rest 0
        rw [List.replicate_zero, List.nil_append] at ih
        have h2 : 2 * bs + 1 = bs + (bs + 1) := by omega
        rw [h2, ← ih]
        simp [List.replicate_add, List.replicate_succ']
      · rw [argLoop_cons_other c rest [] bs h92 h34,
            escInnerAux_other bs c rest h92 h34,
            argLoop_factor rest ([] ++ [c]) 0]
        have ih := argLoop_fst_eq rest 0
        rw [List.replicate_zero, List.nil_append] at ih
        rw [← ih]
        simp

theorem takeWhile_append_all {p : Nat → Bool} :
    ∀ {l : List Nat}, l.all p = true → ∀ (l' : List Nat),
      (l ++ l').takeWhile p = l ++ l'.takeWhile p
  | [], _, l' => rfl
  | c :: rest, h, l' => by
    rw [List.all_cons, Bool.and_eq_true] at h
    simp [List.takeWhile_cons, h.1, takeWhile_append_all h.2 l']

theorem takeWhile_append_not_all {p : Nat → Bool} :
    ∀ {l : List Nat}, l.all p = false → ∀ (l' : List Nat),
      (l ++ l').takeWhile p = l.takeWhile p
  | [], h, _ => by simp [List.all_nil] at h
  | c :: rest, h, l' => by
    rw [List.all_cons] at h
    by_cases hc : p c = true
    · have hr : rest.all p = false := by
        rw [hc, Bool.true_and] at h
        exact h
      simp [List.takeWhile_cons, hc, takeWhile_append_not_all hr l']
    · rw [Bool.not_eq_true] at hc
      simp [List.takeWhile_cons, hc]

theorem trailingBackslashes_all (l : List Nat) (h : l.all (fun c => c = 92) = true) :
    trailingBackslashes l = l.length := by
  unfold trailingBackslashes
  have hrev : l.reverse.all (fun c => c = 92) = true := by
    rw [List.all_eq_true] at h ⊢
    intro x hx
    exact h x (List.mem_reverse.mp hx)
  have hw := takeWhile_append_all (p := fun c => c = 92) hrev []
  simp only [List.append_nil, List.takeWhile_nil] at hw
  rw [hw]
  simp

theorem trailingBackslashes_cons_not_all (c : Nat) (l : List Nat)
    (h : l.all (fun c => c = 92) = false) :
    trailingBackslashes (c :: l) = trailingBackslashes l := by
  unfold trailingBackslashes
  have hrev : l.reverse.all (fun c => c = 92) = false := by
    rw [Bool.eq_false_iff] at h ⊢
    intro hc
    apply h
    rw [List.all_eq_true] at hc ⊢
    intro x hx
    exact hc x (List.mem_reverse.mpr hx)
  rw [List.reverse_cons, takeWhile_append_not_all hrev [c]]

theorem trailingBackslashes_cons_all (c : Nat) (l : List Nat)
    (hc : ¬ c = 92) (h : l.all (fun c => c = 92) = true) :
    trailingBackslashes (c :: l) = l.length := by
  unfold trailingBackslashes
  have hrev : l.reverse.all (fun c => c = 92) = true := by
    rw [List.all_eq_true] at h ⊢
    intro x hx
    exact h x (List.mem_reverse.mp hx)
  rw [List.reverse_cons, takeWhile_append_all hrev [c]]
  simp [List.takeWhile_cons, hc]

theorem argLoop_snd_eq :
    ∀ (chars : List Nat) (bs : Nat),
      (argLoop chars [] bs).2 =
        if chars.all (fun c => c = 92) = true then bs + chars.length
        else trailingBackslashes chars
  | [], bs => by simp [argLoop, trailingBackslashes]
  | c :: rest, bs => by
    by_cases h92 : c = 92
    · subst h92
      rw [argLoop_cons_92, argLoop_snd_factor rest ([] ++ [92]) (bs + 1),
          argLoop_snd_eq rest (bs + 1)]
      by_cases hall : rest.all (fun c => c = 92) = true
      · rw [if_pos hall, if_pos (by simp [List.all_cons, hall])]
        simp
        omega
      · rw [Bool.not_eq_true] at hall
        rw [if_neg (by simp [hall]), if_neg (by simp [List.all_cons, hall]),
            trailingBackslashes_cons_not_all 92 rest hall]
    · by_cases h34 : c = 34
      · subst h34
        have hcons : ((34 :: rest).all fun c => c = 92) = false := by
          rw [List.all_cons]
          simp
        rw [argLoop_cons_34,
            argLoop_snd_factor rest (([] ++ List.replicate (bs + 1) 92) ++ [34]) 0,
            argLoop_snd_eq rest 0]
        by_cases hall : rest.all (fun c => c = 92) = true
        · rw [if_pos hall, hcons, if_neg (by simp),
              trailingBackslashes_cons_all 34 rest (by decide) hall]
          simp
        · rw [Bool.not_eq_true] at hall
          rw [if_neg (by simp [hall]), hcons, if_neg (by simp),
              trailingBackslashes_cons_not_all 34 rest hall]
      · have hcons : ((c :: rest).all fun c => c = 92) = false := by
          rw [List.all_cons]
          simp [h92]
        rw [argLoop_cons_other c rest [] bs h92 h34,
            argLoop_snd_factor rest ([] ++ [c]) 0,
            argLoop_snd_eq rest 0]
        by_cases hall : rest.all (fun c => c = 92) = true
        · rw [if_pos hall, hcons, if_neg (by simp),
              trailingBackslashes_cons_all c rest h92 hall]
          simp
        · rw [Bool.not_eq_true] at hall
          rw [if_neg (by simp [hall]), hcons, if_neg (by simp),
              trailingBackslashes_cons_not_all c rest hall]

theorem argLoop_fst_zero (chars : List Nat) :
    (argLoop chars [] 0).1 = escInner chars := by
  have h := argLoop_fst_eq chars 0
  rw [List.replicate_zero, List.nil_append] at h
  exact h

theorem argLoop_snd_zero (chars : List Nat) :
    (argLoop chars [] 0).2 = trailingBackslashes chars := by
  rw [argLoop_snd_eq chars 0]
  by_cases hall : chars.all (fun c => c = 92) = true
  · rw [if_pos hall, trailingBackslashes_all chars hall]
    simp
  · rw [Bool.not_eq_true] at hall
    rw [if_neg (by simp [hall])]

theorem append_arg_eq (cmd : List Nat) (arg : OsStr) (fq : Bool)
    (h : arg.any (fun b => b = 0) = false) :
    append_arg cmd arg fq = .ok (cmd ++ specToken arg fq) := by
  have hok : ensure_no_nuls arg = .ok arg := by
    unfold ensure_no_nuls
    rw [h]
    rfl
  unfold append_arg specToken
  rw [hok]
  simp only []
  by_cases hq : ((fq || List.any arg fun c => decide (c = 32) || decide (c = 9))
      || List.isEmpty arg) = true
  · simp only [if_pos hq]
    rw [argLoop_factor arg (cmd ++ [34]) 0]
    simp only [argLoop_fst_zero, argLoop_snd_zero]
    simp
  · simp only [if_neg hq]
    rw [argLoop_factor arg cmd 0]
    simp only [argLoop_fst_zero, argLoop_snd_zero]
    simp

theorem make_command_line_args_eq :
    ∀ (args : List OsStr) (cmd : List Nat),
      (∀ a ∈ args, a.any (fun b => b = 0) = false) →
      make_command_line_args cmd args =
        .ok (cmd ++ (args.map (fun a => 32 :: specToken a false)).flatten)
  | [], cmd, _ => by simp [make_command_line_args]
  | arg :: rest, cmd, h => by
    unfold make_command_line_args
    rw [append_arg_eq (cmd ++ [32]) arg false (h arg (List.mem_cons_self _ _))]
    simp only []
    rw [make_command_line_args_eq rest ((cmd ++ [32]) ++ specToken arg false)
      (fun a ha => h a (List.mem_cons_of_mem _ ha))]
    simp

/-- C5: the command-line encoder always quotes the program token regardless
of content; it quotes an argument token exactly when the argument is empty,
contains a space or tab, or quoting is forced; inside a token a literal
quote preceded by a run of N backslashes is emitted as 2N+1 backslashes
before the quote, a quoted token's trailing run of N backslashes becomes 2N
backslashes before the closing quote, and all other backslashes are copied
through unchanged; tokens are space-joined and no trailing terminator is
appended (the nul is pushed by the caller, not the encoder). -/
theorem make_command_line_spec (prog : OsStr) (args : List OsStr)
    (hp : prog.any (fun b => b = 0) = false)
    (ha : ∀ a ∈ args, a.any (fun b => b = 0) = false) :
    make_command_line prog args = .ok (specCommandLine prog args) := by
  unfold make_command_line
  rw [append_arg_eq [] prog true hp]
  simp only []
  rw [make_command_line_args_eq args ([] ++ specToken prog true) ha]
  simp [specCommandLine]

/-- Witness for C5 at program p and argument list consisting of the single
argument a b, whose encodings are evaluated concretely. -/
theorem make_command_line_spec_witness :
    ([112].any (fun b => b = 0) = false)
    ∧ make_command_line [112] [[97, 32, 98]] = .ok (specCommandLine [112] [[97, 32, 98]])
    ∧ specCommandLine [112] [[97, 32, 98]] = [34, 112, 34, 32, 34, 97, 32, 98, 34] :=
  ⟨by decide,
   make_command_line_spec [112] [[97, 32, 98]] (by decide) (by decide),
   by decide⟩

/-- Modelled from the spec: the standard native argv-parsing algorithm
(CommandLineToArgvW semantics) is a Windows API, not part of this
repository's sources.  Character consumer for one argument token,
following the documented rules: `bs` counts a pending run of backslashes;
2n backslashes before a quote yield n backslashes and toggle in-quotes
mode, 2n+1 yield n backslashes plus a literal quote; backslashes not
before a quote are literal; an unquoted space or tab ends the token. -/
def parseArgAux : Bool → Nat → List Nat → List Nat → (List Nat × List Nat)
  | _, bs, acc, [] => (acc ++ List.replicate bs 92, [])
  | inQ, bs, acc, c :: rest =>
    if c = 92 then parseArgAux inQ (bs + 1) acc rest
    else if c = 34 then
      let acc1 := acc ++ List.replicate (bs / 2) 92
      if bs % 2 = 1 then parseArgAux inQ 0 (acc1 ++ [34]) rest
      else parseArgAux (!inQ) 0 acc1 rest
    else
      let acc1 := acc ++ List.replicate bs 92
      if (c = 32 || c = 9) && inQ = false then (acc1, rest)
      else parseArgAux inQ 0 (acc1 ++ [c]) rest

/-- Modelled from the spec: whitespace between argv tokens. -/
def skipWs : List Nat → List Nat
  | [] => []
  | c :: rest => if c = 32 || c = 9 then skipWs rest else c :: rest

/-- Modelled from the spec: split the tail of a command line into argv
tokens; the fuel argument only bounds the recursion and is given as the
input length plus one. -/
def parseArgsAux : Nat → List Nat → List (List Nat)
  | 0, _ => []
  | fuel + 1, s =>
    match skipWs s with
    | [] => []
    | c :: rest =>
      match parseArgAux false 0 [] (c :: rest) with
      | (tok, remaining) => tok :: parseArgsAux fuel remaining

/-- Modelled from the spec: the program (first) token of a command line is
parsed without backslash processing — if it starts with a quote it extends
to the next quote, otherwise to the first space or tab. -/
def takeUntilQuote : List Nat → (List Nat × List Nat)
  | [] => ([], [])
  | c :: rest =>
    if c = 34 then ([], rest)
    else
      match takeUntilQuote rest with
      | (tok, rem) => (c :: tok, rem)

/-- Modelled from the spec: an unquoted program token extends to the first
space or tab. -/
def takeUntilWs : List Nat → (List Nat × List Nat)
  | [] => ([], [])
  | c :: rest =>
    if c = 32 || c = 9 then ([], rest)
    else
      match takeUntilWs rest with
      | (tok, rem) => (c :: tok, rem)

/-- Modelled from the spec: full CommandLineToArgvW-style decoding — the
program token followed by the whitespace-separated argument tokens. -/
def parseCmdLine (s : List Nat) : List (List Nat) :=
  match s with
  | [] => [[]]
  | c :: rest =>
    let pr := if c = 34 then takeUntilQuote rest else takeUntilWs (c :: rest)
    pr.1 :: parseArgsAux (pr.2.length + 1) pr.2

/-- C6: encoding each of the argument lists consisting of the single
argument empty-string, a b, a-quote-b, c:backslash-path-backslash, and
a-double-backslash-b with `make_command_line` (under program p) and then
decoding the result with the native argv-parsing algorithm reproduces the
program token and the original argument list exactly. -/
theorem make_command_line_roundtrip :
    (make_command_line [112] [[]]).map parseCmdLine = .ok [[112], []]
    ∧ (make_command_line [112] [[97, 32, 98]]).map parseCmdLine
        = .ok [[112], [97, 32, 98]]
    ∧ (make_command_line [112] [[97, 34, 98]]).map parseCmdLine
        = .ok [[112], [97, 34, 98]]
    ∧ (make_command_line [112] [[99, 58, 92, 112, 97, 116, 104, 92]]).map parseCmdLine
        = .ok [[112], [99, 58, 92, 112, 97, 116, 104, 92]]
    ∧ (make_command_line [112] [[97, 92, 92, 98]]).map parseCmdLine
        = .ok [[112], [97, 92, 92, 98]] := by
  refine ⟨?_, ?_, ?_, ?_, ?_⟩ <;> decide

/-- The entry loop of `make_envp`: each override entry is nul-checked and
appended as KEY, the equals sign, VALUE, and one nul terminator. -/
def make_envp_entries : List (OsStr × OsStr) → List Nat → Except IoErrorKind (List Nat)
  | [], blk => .ok blk
  | (k, v) :: rest, blk =>
    match ensure_no_nuls k with
    | .error e => .error e
    | .ok _ =>
      match ensure_no_nuls v with
      | .error e => .error e
      | .ok _ => make_envp_entries rest (((blk ++ k) ++ [61] ++ v) ++ [0])

/-- `make_envp` (windows/command.rs lines 421-439): with an override map,
emit the entries in the map's iteration (key-sorted) order followed by one
extra nul; with no override map, an empty buffer and a null block pointer —
the Bool component models whether the returned pointer is null. -/
def make_envp (maybe_env : Option (List (OsStr × OsStr))) :
    Except IoErrorKind (Bool × List Nat) :=
  match maybe_env with
  | some env =>
    match make_envp_entries env [] with
    | .error e => .error e
    | .ok blk => .ok (false, blk ++ [0])
  | none => .ok (true, [])

/-- `make_dirp` (windows/command.rs lines 441-450): nul-checks and
nul-terminates the working directory, or yields a null pointer (the Bool
component) when no directory is set. -/
def make_dirp : Option OsStr → Except IoErrorKind (Bool × List Nat)
  | some dir =>
    match ensure_no_nuls dir with
    | .error e => .error e
    | .ok d => .ok (false, d ++ [0])
  | none => .ok (true, [])

theorem make_envp_entries_ok :
    ∀ (env : List (OsStr × OsStr)) (blk : List Nat),
      (∀ p ∈ env, p.1.any (fun b => b = 0) = false ∧ p.2.any (fun b => b = 0) = false) →
      make_envp_entries env blk =
        .ok (blk ++ (env.map (fun p => p.1 ++ [61] ++ p.2 ++ [0])).flatten)
  | [], blk, _ => by simp [make_envp_entries]
  | (k, v) :: rest, blk, h => by
    have hk := (h (k, v) (List.mem_cons_self _ _)).1
    have hv := (h (k, v) (List.mem_cons_self _ _)).2
    have hok1 : ensure_no_nuls k = .ok k := by unfold ensure_no_nuls; rw [hk]; rfl
    have hok2 : ensure_no_nuls v = .ok v := by unfold ensure_no_nuls; rw [hv]; rfl
    unfold make_envp_entries
    rw [hok1]
    simp only []
    rw [hok2]
    simp only []
    rw [make_envp_entries_ok rest _ (fun p hp => h p (List.mem_cons_of_mem _ hp))]
    simp

theorem make_envp_entries_err :
    ∀ (env : List (OsStr × OsStr)) (blk : List Nat),
      (∃ p ∈ env, p.1.any (fun b => b = 0) = true ∨ p.2.any (fun b => b = 0) = true) →
      make_envp_entries env blk = .error .invalidInput
  | [], _, h => by simp at h
  | (k, v) :: rest, blk, h => by
    unfold make_envp_entries
    by_cases hk : k.any (fun b => b = 0) = true
    · have he : ensure_no_nuls k = .error .invalidInput := by
        unfold ensure_no_nuls; rw [hk]; rfl
      rw [he]
    · rw [Bool.not_eq_true] at hk
      have hok1 : ensure_no_nuls k = .ok k := by unfold ensure_no_nuls; rw [hk]; rfl
      rw [hok1]
      simp only []
      by_cases hv : v.any (fun b => b = 0) = true
      · have he : ensure_no_nuls v = .error .invalidInput := by
          unfold ensure_no_nuls; rw [hv]; rfl
        rw [he]
      · rw [Bool.not_eq_true] at hv
        have hok2 : ensure_no_nuls v = .ok v := by unfold ensure_no_nuls; rw [hv]; rfl
        rw [hok2]
        simp only []
        apply make_envp_entries_err
        rcases h with ⟨p, hp, hbad⟩
        rcases List.mem_cons.mp hp with hph | hpt
        · exfalso
          subst hph
          rcases hbad with hbad | hbad
          · rw [hk] at hbad; cases hbad
          · rw [hv] at hbad; cases hbad
        · exact ⟨p, hpt, hbad⟩

/-- C7: for a key-sorted merged environment map, the environment-block
encoder produces each KEY=VALUE entry in the map's order followed by one
nul terminator, with one extra nul after the last entry; a nul inside any
key or value makes it fail with InvalidInput; and with no override map it
produces an empty buffer and a null block pointer. -/
theorem make_envp_spec (env : List (OsStr × OsStr)) (hs : SortedKeys env) :
    make_envp (some env) =
      (if ∃ p ∈ env, p.1.any (fun b => b = 0) = true ∨ p.2.any (fun b => b = 0) = true
       then .error .invalidInput
       else .ok (false, (env.map (fun p => p.1 ++ [61] ++ p.2 ++ [0])).flatten ++ [0]))
    ∧ make_envp none = .ok (true, []) := by
  constructor
  · have hsome : make_envp (some env) =
        (match make_envp_entries env [] with
         | .error e => .error e
         | .ok blk => .ok (false, blk ++ [0])) := rfl
    rw [hsome]
    by_cases hex : ∃ p ∈ env,
        p.1.any (fun b => b = 0) = true ∨ p.2.any (fun b => b = 0) = true
    · rw [if_pos hex, make_envp_entries_err env [] hex]
    · rw [if_neg hex]
      have hall : ∀ p ∈ env,
          p.1.any (fun b => b = 0) = false ∧ p.2.any (fun b => b = 0) = false := by
        intro p hp
        constructor
        · rw [← Bool.not_eq_true]
          exact fun hc => hex ⟨p, hp, Or.inl hc⟩
        · rw [← Bool.not_eq_true]
          exact fun hc => hex ⟨p, hp, Or.inr hc⟩
      rw [make_envp_entries_ok env [] hall]
      simp
  · rfl

/-- Witness for C7 at the singleton map A maps-to B, with the block
evaluated concretely. -/
theorem make_envp_spec_witness :
    SortedKeys [(([65] : OsStr), ([66] : OsStr))]
    ∧ make_envp (some [([65], [66])]) = .ok (false, [65, 61, 66, 0, 0]) := by
  constructor
  · simp [SortedKeys]
  · rw [(make_envp_spec [([65], [66])] (by simp [SortedKeys])).1]
    decide

/-- Reader endpoint, abstracted as an opaque handle value (the pipe
`Receiver` of windows/pipe.rs). -/
abbrev PtyReader := Nat

/-- Writer endpoint, abstracted as an opaque handle value (the pipe
`Sender` of windows/pipe.rs). -/
abbrev PtyWriter := Nat

/-- Modelled from the spec: the crate's error-chain `errors` module is not
under src/; per spec section 7 the failure of a second `get_io_handles`
call is the HandleAlreadyTaken kind (the source's chain_err message reads
IO handles already taken). -/
inductive RexpectError
  | handleAlreadyTaken
  deriving DecidableEq

/-- `PtyProcess` (windows/process.rs lines 11-15): the one-shot io slot
and the pseudo-console and process handles. -/
structure PtyProcess where
  io : Option (PtyReader × PtyWriter)
  pty : Nat
  procHandle : Nat
  deriving DecidableEq

/-- `PtyProcess::init` (windows/process.rs lines 21-27): the slot is
filled with the reader/writer pair. -/
def PtyProcess.init (pty_read : PtyReader) (pty_write : PtyWriter)
    (pty procH : Nat) : PtyProcess :=
  { io := some (pty_read, pty_write), pty := pty, procHandle := procH }

/-- `PtyProcess::get_io_handles` (windows/process.rs lines 28-30):
`Option::take` — returns the pair and empties the slot, or fails with
HandleAlreadyTaken when the slot is already empty.  The second component is
the updated receiver state. -/
def PtyProcess.get_io_handles (p : PtyProcess) :
    Except RexpectError (PtyReader × PtyWriter) × PtyProcess :=
  match p.io with
  | some pair => (.ok pair, { p with io := none })
  | none => (.error .handleAlreadyTaken, p)

/-- `PtyProcess::set_kill_timeout` (windows/process.rs lines 31-33): the
body is empty — the argument is discarded and no state is recorded. -/
def PtyProcess.set_kill_timeout (p : PtyProcess) (_timeout_ms : Option Nat) :
    PtyProcess :=
  p

/-- C2: on a freshly spawned PtyProcess the first get_io_handles call
returns exactly the reader/writer pair given at init and leaves the slot
empty, and every call on a state whose slot is empty fails with
HandleAlreadyTaken and leaves the state unchanged — the pair is retrievable
exactly once and the handles are never re-created or duplicated. -/
theorem get_io_handles_once (r : PtyReader) (w : PtyWriter) (pty procH : Nat) :
    ((PtyProcess.init r w pty procH).get_io_handles
        = (.ok (r, w), { io := none, pty := pty, procHandle := procH }))
    ∧ (∀ q : PtyProcess, q.io = none →
        q.get_io_handles = (.error .handleAlreadyTaken, q)) := by
  constructor
  · rfl
  · intro q hq
    unfold PtyProcess.get_io_handles
    rw [hq]

/-- Witness for C2 at concrete handles: the first call succeeds, the second
fails. -/
theorem get_io_handles_once_witness :
    ((PtyProcess.init 1 2 3 4).get_io_handles
        = (.ok (1, 2), { io := none, pty := 3, procHandle := 4 }))
    ∧ ({ io := none, pty := 3, procHandle := 4 } : PtyProcess).get_io_handles
        = (.error .handleAlreadyTaken, { io := none, pty := 3, procHandle := 4 }) :=
  ⟨(get_io_handles_once 1 2 3 4).1,
   (get_io_handles_once 1 2 3 4).2 { io := none, pty := 3, procHandle := 4 } rfl⟩

/-- C9 (code evidence): the Windows `set_kill_timeout` discards its
argument — configuring a five-second timeout, or none, leaves the
PtyProcess state bit-for-bit unchanged, so no graceful-shutdown deadline is
ever recorded or consulted (and `PtyProcess` has no destructor). -/
theorem set_kill_timeout_noop :
    (PtyProcess.init 1 2 3 4).set_kill_timeout (some 5000) = PtyProcess.init 1 2 3 4
    ∧ (PtyProcess.init 1 2 3 4).set_kill_timeout none = PtyProcess.init 1 2 3 4
    ∧ ∀ (p : PtyProcess) (t : Option Nat), p.set_kill_timeout t = p :=
  ⟨rfl, rfl, fun _ _ => rfl⟩

theorem append_arg_err (cmd : List Nat) (arg : OsStr) (fq : Bool)
    (h : arg.any (fun b => b = 0) = true) :
    append_arg cmd arg fq = .error .invalidInput := by
  have he : ensure_no_nuls arg = .error .invalidInput := by
    unfold ensure_no_nuls
    rw [h]
    rfl
  unfold append_arg
  rw [he]

theorem make_command_line_args_err :
    ∀ (args : List OsStr) (cmd : List Nat),
      (∃ a ∈ args, a.any (fun b => b = 0) = true) →
      make_command_line_args cmd args = .error .invalidInput
  | [], _, h => by simp at h
  | arg :: rest, cmd, h => by
    unfold make_command_line_args
    by_cases hh : arg.any (fun b => b = 0) = true
    · rw [append_arg_err (cmd ++ [32]) arg false hh]
    · rw [Bool.not_eq_true] at hh
      rw [append_arg_eq (cmd ++ [32]) arg false hh]
      simp only []
      apply make_command_line_args_err
      rcases h with ⟨a, ha, hbad⟩
      rcases List.mem_cons.mp ha with h1 | h1
      · exfalso
        subst h1
        rw [hh] at hbad
        cases hbad
      · exact ⟨a, h1, hbad⟩

theorem make_command_line_err_prog (prog : OsStr) (args : List OsStr)
    (h : prog.any (fun b => b = 0) = true) :
    make_command_line prog args = .error .invalidInput := by
  unfold make_command_line
  rw [append_arg_err [] prog true h]

theorem make_command_line_err_arg (prog : OsStr) (args : List OsStr)
    (h : ∃ a ∈ args, a.any (fun b => b = 0) = true) :
    make_command_line prog args = .error .invalidInput := by
  unfold make_command_line
  by_cases hp : prog.any (fun b => b = 0) = true
  · rw [append_arg_err [] prog true hp]
  · rw [Bool.not_eq_true] at hp
    rw [append_arg_eq [] prog true hp]
    simp only []
    exact make_command_line_args_err args _ h

theorem make_envp_err (env : List (OsStr × OsStr))
    (h : ∃ p ∈ env, p.1.any (fun b => b = 0) = true ∨ p.2.any (fun b => b = 0) = true) :
    make_envp (some env) = .error .invalidInput := by
  have hsome : make_envp (some env) =
      (match make_envp_entries env [] with
       | .error e => .error e
       | .ok blk => .ok (false, blk ++ [0])) := rfl
  rw [hsome, make_envp_entries_err env [] h]

theorem make_dirp_err (d : OsStr) (h : d.any (fun b => b = 0) = true) :
    make_dirp (some d) = .error .invalidInput := by
  have he : ensure_no_nuls d = .error .invalidInput := by
    unfold ensure_no_nuls
    rw [h]
    rfl
  have hsome : make_dirp (some d) =
      (match ensure_no_nuls d with
       | .error e => .error e
       | .ok d2 => .ok (false, d2 ++ [0])) := rfl
  rw [hsome, he]

/-- One native call or resource event of the Windows spawn procedure. -/
inductive OsEvent
  | createPipe (txId rxId : Nat)
  | createPseudoConsole (id : Nat)
  | closePseudoConsole (id : Nat)
  | initAttrListQuery
  | allocAttrBuf
  | initAttrList
  | updateAttrList
  | createProcess
  | closeHandle (id : Nat)
  | freeAttrBuf
  deriving DecidableEq

/-- The windows `Command` descriptor (windows/command.rs lines 176-187). -/
structure Command where
  program : OsStr
  args : List OsStr
  env : CommandEnv
  cwd : Option OsStr

/-- `Command::new`: program only, empty arguments, default environment, no
working directory. -/
def Command.new (program : OsStr) : Command :=
  { program := program, args := [], env := CommandEnv.default, cwd := none }

/-- The program actually passed to `make_command_line`: `spawn_pty`
resolves the program against an explicit PATH override when one exists in
the captured environment; the file-system probe loop over the split PATH
(env::split_paths with fs::metadata) is abstracted by the `resolve`
parameter, standing for that loop's result. -/
def resolvedProgram (c : Command) (ambient : Ambient) (resolve : Option OsStr) : OsStr :=
  match c.env.capture_if_changed ambient with
  | some env =>
    match lookupA PATHKey env with
    | some _ => resolve.getD c.program
    | none => c.program
  | none => c.program

/-- The native-call events performed before any nul validation, in program
order: the two anonymous pipes, pseudo-console creation over the child-side
ends, the attribute-list size query, its buffer allocation and actual
initialization, and the pseudo-console attribute update.  Handle ids:
input_tx 0, input_rx 1, output_tx 2, output_rx 3, pseudo-console 4,
thread 5, process 6. -/
def spawnPrefix : List OsEvent :=
  [.createPipe 0 1, .createPipe 2 3, .createPseudoConsole 4,
   .initAttrListQuery, .allocAttrBuf, .initAttrList, .updateAttrList]

/-- The drop events of an early error return from `spawn_pty`: live locals
drop in reverse declaration order — the attribute-list buffer, then
output_rx (3), output_tx (2), input_rx (1), input_tx (0).  The raw
pseudo-console handle has no destructor and is not closed on any path. -/
def spawnErrDrops : List OsEvent :=
  [.freeAttrBuf, .closeHandle 3, .closeHandle 2, .closeHandle 1, .closeHandle 0]

/-- `Command::spawn_pty` (windows/command.rs lines 205-299), modelled as
the trace of native-call and resource events together with the result,
under an oracle in which every native call succeeds: after the pipe,
pseudo-console and attribute-list steps, the command-line, environment
block and directory encoders run (each can fail with InvalidInput, which
the `?` propagates while the in-scope owned values drop); on success
CreateProcessW runs, the unused thread handle is closed, output_rx and
input_tx move into the returned PtyProcess, and the child-side pipe ends
and the buffer drop at scope exit. -/
def spawn_pty (c : Command) (ambient : Ambient) (resolve : Option OsStr) :
    List OsEvent × Except IoErrorKind PtyProcess :=
  let maybe_env := c.env.capture_if_changed ambient
  let program := resolvedProgram c ambient resolve
  match make_command_line program c.args with
  | .error e => (spawnPrefix ++ spawnErrDrops, .error e)
  | .ok _cmd =>
    match make_envp maybe_env with
    | .error e => (spawnPrefix ++ spawnErrDrops, .error e)
    | .ok _envp =>
      match make_dirp c.cwd with
      | .error e => (spawnPrefix ++ spawnErrDrops, .error e)
      | .ok _dirp =>
        (spawnPrefix ++ [.createProcess, .closeHandle 5, .freeAttrBuf,
            .closeHandle 2, .closeHandle 1],
         .ok (PtyProcess.init 3 0 4 6))

/-- C3 (amended): if the resolved program, any argument, any key or value
of the captured environment override, or the working directory contains a
nul character, then spawn_pty fails with InvalidInput and native process
creation is never attempted — but the pipe creations, the pseudo-console
allocation and the attribute-list initialization have already been
performed by then. -/
theorem spawn_nul_guard (c : Command) (ambient : Ambient) (resolve : Option OsStr)
    (h : (resolvedProgram c ambient resolve).any (fun b => b = 0) = true
      ∨ (∃ a ∈ c.args, a.any (fun b => b = 0) = true)
      ∨ (∃ env, c.env.capture_if_changed ambient = some env
          ∧ ∃ p ∈ env, p.1.any (fun b => b = 0) = true ∨ p.2.any (fun b => b = 0) = true)
      ∨ (∃ d, c.cwd = some d ∧ d.any (fun b => b = 0) = true)) :
    (spawn_pty c ambient resolve).2 = .error .invalidInput
    ∧ OsEvent.createProcess ∉ (spawn_pty c ambient resolve).1
    ∧ OsEvent.createPipe 0 1 ∈ (spawn_pty c ambient resolve).1
    ∧ OsEvent.createPseudoConsole 4 ∈ (spawn_pty c ambient resolve).1
    ∧ OsEvent.initAttrList ∈ (spawn_pty c ambient resolve).1 := by
  have htrace : spawn_pty c ambient resolve
      = (spawnPrefix ++ spawnErrDrops, .error .invalidInput) := by
    cases hm : make_command_line (resolvedProgram c ambient resolve) c.args with
    | error e =>
      cases e
      unfold spawn_pty
      simp only [hm]
    | ok lcmd =>
      cases hv : make_envp (c.env.capture_if_changed ambient) with
      | error e =>
        cases e
        unfold spawn_pty
        simp only [hm, hv]
      | ok pv =>
        cases hd : make_dirp c.cwd with
        | error e =>
          cases e
          unfold spawn_pty
          simp only [hm, hv, hd]
        | ok pd =>
          exfalso
          rcases h with h | h | h | h
          · rw [make_command_line_err_prog _ c.args h] at hm
            cases hm
          · rw [make_command_line_err_arg _ c.args h] at hm
            cases hm
          · rcases h with ⟨env, henv, hbad⟩
            rw [henv, make_envp_err env hbad] at hv
            cases hv
          · rcases h with ⟨d, hcwd, hbad⟩
            rw [hcwd, make_dirp_err d hbad] at hd
            cases hd
  rw [htrace]
  refine ⟨rfl, ?_, ?_, ?_, ?_⟩ <;> decide

/-- Witness for the amended C3 at a command whose program is the single nul
character, spawned with empty ambient environment. -/
theorem spawn_nul_guard_witness :
    ((resolvedProgram (Command.new [0]) [] none).any (fun b => b = 0) = true)
    ∧ ((spawn_pty (Command.new [0]) [] none).2 = .error .invalidInput
       ∧ OsEvent.createProcess ∉ (spawn_pty (Command.new [0]) [] none).1
       ∧ OsEvent.createPipe 0 1 ∈ (spawn_pty (Command.new [0]) [] none).1
       ∧ OsEvent.createPseudoConsole 4 ∈ (spawn_pty (Command.new [0]) [] none).1
       ∧ OsEvent.initAttrList ∈ (spawn_pty (Command.new [0]) [] none).1) :=
  ⟨by decide, spawn_nul_guard (Command.new [0]) [] none (Or.inl (by decide))⟩

/-- C3 counterexample: for the command whose program is the single nul
character, spawning does fail with InvalidInput, but the trace already
contains the pipe creations, the pseudo-console allocation and the
attribute-list initialization — refuting the claim that the error is
raised before any native OS call is attempted. -/
theorem spawn_nul_not_before_native :
    ((spawn_pty (Command.new [0]) [] none).2 = .error .invalidInput)
    ∧ OsEvent.createPipe 0 1 ∈ (spawn_pty (Command.new [0]) [] none).1
    ∧ OsEvent.createPipe 2 3 ∈ (spawn_pty (Command.new [0]) [] none).1
    ∧ OsEvent.createPseudoConsole 4 ∈ (spawn_pty (Command.new [0]) [] none).1
    ∧ OsEvent.initAttrListQuery ∈ (spawn_pty (Command.new [0]) [] none).1
    ∧ OsEvent.initAttrList ∈ (spawn_pty (Command.new [0]) [] none).1 := by
  refine ⟨?_, ?_, ?_, ?_, ?_, ?_⟩ <;> decide

/-- C4 (code evidence): on the failure path where a nul program is rejected
after resource acquisition, the spawn trace shows the pseudo-console was
created but is never closed — ClosePseudoConsole is imported by the source
yet called nowhere — while the four pipe handles are closed and the
attribute-list buffer is freed before the error returns. -/
theorem spawn_leak_pseudoconsole :
    ((spawn_pty (Command.new [0]) [] none).2 = .error .invalidInput)
    ∧ OsEvent.createPseudoConsole 4 ∈ (spawn_pty (Command.new [0]) [] none).1
    ∧ (∀ i, OsEvent.closePseudoConsole i ∉ (spawn_pty (Command.new [0]) [] none).1)
    ∧ OsEvent.closeHandle 0 ∈ (spawn_pty (Command.new [0]) [] none).1
    ∧ OsEvent.closeHandle 1 ∈ (spawn_pty (Command.new [0]) [] none).1
    ∧ OsEvent.closeHandle 2 ∈ (spawn_pty (Command.new [0]) [] none).1
    ∧ OsEvent.closeHandle 3 ∈ (spawn_pty (Command.new [0]) [] none).1
    ∧ OsEvent.freeAttrBuf ∈ (spawn_pty (Command.new [0]) [] none).1 := by
  refine ⟨by decide, by decide, ?_, by decide, by decide, by decide, by decide, by decide⟩
  intro i
  have ht : (spawn_pty (Command.new [0]) [] none).1 = spawnPrefix ++ spawnErrDrops := by
    decide
  rw [ht]
  simp [spawnPrefix, spawnErrDrops]
